import Mathlib

/-!
Verification of the tree-selection engine and suggestion engine of the
conversational-automation-tool repository.

The selection engine is embedded from
`src/components/layout/LeftSidebar.tsx` (`updateNodeSelection`,
`updateAllChildren`, `updateParentState`, `getSelectedTestCasesInFolder`),
the suggestion engine from `src/components/test-editor/TestCaseHeader.tsx`
(`TEST_ACTIONS`, `PAGE_OBJECTS`, `getActionSuggestions`,
`getObjectSuggestions`) and the step-input context classifier
(`triggerSuggestions`).

A `TreeNode` in the source is
`{ id; name; type: 'project'|'folder'|'test'; children?; isExpanded?;
   status?; route?; selected?; indeterminate? }`.
The fields read or written by the selection engine are `id`, `type`,
`selected`, `indeterminate` and `children`; `name` is carried along
unchanged, and the remaining purely view-state fields (`isExpanded`,
`status`, `route`), which no engine operation reads or writes, are omitted
from the embedding.  The optional `children` field is modelled by
`Children`: `undef` for an absent field, `arr cs` for a present (possibly
empty) array — this mirrors JavaScript truthiness, where `undefined` is
falsy but `[]` is truthy.  Optional booleans are modelled as `Bool`
(`undefined` and `false` behave identically in every read the engine
performs).
-/

inductive NodeType : Type where
  | project : NodeType
  | folder : NodeType
  | test : NodeType
deriving DecidableEq, Repr

mutual
inductive TreeNode : Type where
  | mk (id : String) (name : String) (type : NodeType)
      (selected : Bool) (indeterminate : Bool) (children : Children)
inductive Children : Type where
  | undef : Children
  | arr (cs : NodeList) : Children
inductive NodeList : Type where
  | nil : NodeList
  | cons (hd : TreeNode) (tl : NodeList) : NodeList
end

deriving instance DecidableEq for TreeNode, Children, NodeList

def TreeNode.id : TreeNode → String
  | .mk i _ _ _ _ _ => i

def TreeNode.name : TreeNode → String
  | .mk _ n _ _ _ _ => n

def TreeNode.type : TreeNode → NodeType
  | .mk _ _ t _ _ _ => t

def TreeNode.selected : TreeNode → Bool
  | .mk _ _ _ s _ _ => s

def TreeNode.indeterminate : TreeNode → Bool
  | .mk _ _ _ _ ind _ => ind

def TreeNode.children : TreeNode → Children
  | .mk _ _ _ _ _ ch => ch

def NodeList.length : NodeList → Nat
  | .nil => 0
  | .cons _ tl => tl.length + 1

def NodeList.toList : NodeList → List TreeNode
  | .nil => []
  | .cons hd tl => hd :: tl.toList

/-- `node.children.filter(child => child.selected).length`. -/
def countSelected : NodeList → Nat
  | .nil => 0
  | .cons hd tl => (if hd.selected then 1 else 0) + countSelected tl

/-- `node.children.filter(child => child.indeterminate).length`. -/
def countIndeterminate : NodeList → Nat
  | .nil => 0
  | .cons hd tl => (if hd.indeterminate then 1 else 0) + countIndeterminate tl

/-- The three-branch flag recompute of `updateParentState`
(`LeftSidebar.tsx` lines 551–567), which reads only the children:
all children selected → `(true, false)`; otherwise some child selected or
some child indeterminate → `(false, true)`; otherwise → `(false, false)`. -/
def computeFlags (cs : NodeList) : Bool × Bool :=
  if countSelected cs = cs.length then (true, false)
  else if 0 < countSelected cs ∨ 0 < countIndeterminate cs then (false, true)
  else (false, false)

/-- `updateParentState(node)` (`LeftSidebar.tsx` lines 551–567): returns
immediately when `node.children` is falsy (absent), otherwise overwrites
`selected`/`indeterminate` from the children.  An empty-but-present
children array is truthy in JavaScript, so it is recomputed too (and
`0 === 0` makes the all-selected branch fire). -/
def updateParentState : TreeNode → TreeNode
  | .mk i n t s ind .undef => .mk i n t s ind .undef
  | .mk i n t _ _ (.arr cs) =>
      .mk i n t (computeFlags cs).1 (computeFlags cs).2 (.arr cs)

mutual
/-- The body of the `.map` of `updateAllChildren` (`LeftSidebar.tsx`
lines 542–549): forces `selected := value`, `indeterminate := false` on a
child and recurses into a present children array. -/
def updateAllChild (v : Bool) : TreeNode → TreeNode
  | .mk i n t _ _ .undef => .mk i n t v false .undef
  | .mk i n t _ _ (.arr cs) => .mk i n t v false (.arr (updateAllChildren cs v))
/-- `updateAllChildren(children, selected)` (`LeftSidebar.tsx`
lines 542–549). -/
def updateAllChildren : NodeList → Bool → NodeList
  | .nil, _ => .nil
  | .cons hd tl, v => .cons (updateAllChild v hd) (updateAllChildren tl v)
end

mutual
/-- `updateNodeSelection(nodes, nodeId, selected)` (`LeftSidebar.tsx`
lines 515–540): maps `updateNode` over the list. -/
def updateNodeSelection : NodeList → String → Bool → NodeList
  | .nil, _, _ => .nil
  | .cons hd tl, nodeId, v =>
      .cons (updateNode hd nodeId v) (updateNodeSelection tl nodeId v)
/-- The body of the `.map` of `updateNodeSelection`.  On the target node it
builds `{ ...node, selected }` — note that the target's own
`indeterminate` is NOT cleared — and cascades into a present children
array; on a non-target node with a (truthy) children array it recurses and
then applies `updateParentState`; other nodes are returned unchanged. -/
def updateNode : TreeNode → String → Bool → TreeNode
  | .mk i n t s ind ch, nodeId, v =>
      if i = nodeId then
        match ch with
        | .undef => .mk i n t v ind .undef
        | .arr cs => .mk i n t v ind (.arr (updateAllChildren cs v))
      else
        match ch with
        | .undef => .mk i n t s ind .undef
        | .arr cs =>
            updateParentState (.mk i n t s ind (.arr (updateNodeSelection cs nodeId v)))
end

/-- The inner `findFolder` of `getSelectedTestCasesInFolder`
(`LeftSidebar.tsx` lines 203–229): depth-first search, first match wins,
descending into present children arrays. -/
def findFolder : NodeList → String → Option TreeNode
  | .nil, _ => none
  | .cons (.mk i n t s ind ch) tl, folderId =>
      if i = folderId then some (.mk i n t s ind ch)
      else
        match ch with
        | .undef => findFolder tl folderId
        | .arr cs =>
            match findFolder cs folderId with
            | some f => some f
            | none => findFolder tl folderId

/-- The `forEach` filter of `getSelectedTestCasesInFolder`: keeps the
direct children with `type === 'test' && selected`. -/
def selTests : NodeList → List TreeNode
  | .nil => []
  | .cons hd tl =>
      if hd.type = NodeType.test ∧ hd.selected then hd :: selTests tl
      else selTests tl

/-- `getSelectedTestCasesInFolder(folderId)` (`LeftSidebar.tsx`
lines 203–229): finds the scope node anywhere in the tree, then collects
only its DIRECT children that are selected tests. -/
def getSelectedTestCasesInFolder (treeData : NodeList) (folderId : String) :
    List TreeNode :=
  match findFolder treeData folderId with
  | none => []
  | some f =>
      match f.children with
      | .undef => []
      | .arr cs => selTests cs

mutual
/-- All nodes of a subtree, root first, in tree order. -/
def TreeNode.allNodes : TreeNode → List TreeNode
  | .mk i n t s ind .undef => [.mk i n t s ind .undef]
  | .mk i n t s ind (.arr cs) => .mk i n t s ind (.arr cs) :: NodeList.allNodes cs
/-- All nodes of a forest, in tree order. -/
def NodeList.allNodes : NodeList → List TreeNode
  | .nil => []
  | .cons hd tl => hd.allNodes ++ NodeList.allNodes tl
end

/-- The multiset of ids occurring in a forest. -/
def NodeList.ids (l : NodeList) : List String := l.allNodes.map TreeNode.id

/-- A forest is well formed when no id occurs twice in it. -/
def uniqueIds (l : NodeList) : Prop := l.ids.Nodup

mutual
/-- Ids of the strict descendants of the node carrying the given target
id, searching the whole subtree; empty when the target id does not occur
or the target has no children array. -/
def TreeNode.descIds : TreeNode → String → List String
  | .mk _ _ _ _ _ .undef, _ => []
  | .mk i _ _ _ _ (.arr cs), nodeId =>
      if i = nodeId then NodeList.ids cs else NodeList.descIds cs nodeId
/-- Ids of the strict descendants of the target node, over a forest. -/
def NodeList.descIds : NodeList → String → List String
  | .nil, _ => []
  | .cons hd tl, nodeId => hd.descIds nodeId ++ NodeList.descIds tl nodeId
end

mutual
/-- Whether a node with a present children array already carries exactly
the flags the child-derived recompute would produce, hereditarily.  Nodes
without a children field are unconstrained (their `selected` is the
authoritative leaf state). -/
def consistentN : TreeNode → Bool
  | .mk _ _ _ _ _ .undef => true
  | .mk _ _ _ s ind (.arr cs) =>
      s == (computeFlags cs).1 && ind == (computeFlags cs).2 && consistentL cs
def consistentL : NodeList → Bool
  | .nil => true
  | .cons hd tl => consistentN hd && consistentL tl
end

/-!
## Concrete scenario trees

`demoTree` is the end-to-end example shape of the engine: a project `P`
containing a folder `F` with two test leaves `A` and `B`, everything
initially unselected. -/

def leafA : TreeNode := .mk "A" "A" .test false false .undef
def leafB : TreeNode := .mk "B" "B" .test false false .undef
def folderF : TreeNode :=
  .mk "F" "F" .folder false false (.arr (.cons leafA (.cons leafB .nil)))
def projP : TreeNode := .mk "P" "P" .project false false (.arr (.cons folderF .nil))
def demoTree : NodeList := .cons projP .nil

/-- `demoTree` after selecting leaf `A`: `F` and `P` become indeterminate. -/
def demoTree1 : NodeList := updateNodeSelection demoTree "A" true

/-- `demoTree1` after then selecting the folder `F` itself. -/
def demoTree2 : NodeList := updateNodeSelection demoTree1 "F" true

/-- A folder just created by `createNewFolder` (`LeftSidebar.tsx`
lines 253–263): `selected: false`, `children: []`. -/
def emptyFolderTree : NodeList :=
  .cons (.mk "f" "New Folder" .folder false false (.arr .nil)) .nil

/-- A folder whose only selected test sits two levels down, inside a
subfolder. -/
def deepFolder : TreeNode :=
  .mk "F" "F" .folder false true
    (.arr (.cons (.mk "G" "G" .folder false true
      (.arr (.cons (.mk "T" "T" .test true false .undef) .nil))) .nil))

def deepTree : NodeList := .cons deepFolder .nil

/-- A folder with three test leaves, of which exactly the first is
selected; scope tree for the collection and upward-recompute scenarios. -/
def mixedFolder : TreeNode :=
  .mk "M" "M" .folder false true
    (.arr (.cons (.mk "T1" "T1" .test true false .undef)
      (.cons (.mk "T2" "T2" .test false false .undef)
        (.cons (.mk "T3" "T3" .test false false .undef) .nil))))

def mixedTree : NodeList := .cons mixedFolder .nil

/-- The same folder before any selection: three unselected test leaves. -/
def threeTree : NodeList :=
  .cons (.mk "M" "M" .folder false false
    (.arr (.cons (.mk "T1" "T1" .test false false .undef)
      (.cons (.mk "T2" "T2" .test false false .undef)
        (.cons (.mk "T3" "T3" .test false false .undef) .nil))))) .nil

/-!
## Suggestion engine

Embedded from `src/components/test-editor/TestCaseHeader.tsx`.  JavaScript
string primitives are modelled on `List Char`: `toLowerCase` maps
`Char.toLower`, `trim` drops whitespace from both ends, `includes` is the
substring test and `startsWith` the prefix test.  `localeCompare` on the
catalog's ASCII identifiers is modelled by the lexicographic order on
strings, and `Array.prototype.sort` (stable in modern engines) by the
stable `List.insertionSort`.
-/

def jsToLower (s : String) : String := ⟨s.data.map Char.toLower⟩

def trimList (l : List Char) : List Char :=
  ((l.dropWhile Char.isWhitespace).reverse.dropWhile Char.isWhitespace).reverse

def jsTrim (s : String) : String := ⟨trimList s.data⟩

/-- `hay.includes(needle)`: `needle` occurs contiguously in `hay`. -/
def infixB (needle : List Char) : List Char → Bool
  | [] => needle.isEmpty
  | c :: tl => needle.isPrefixOf (c :: tl) || infixB needle tl

def jsIncludes (hay needle : String) : Bool := infixB needle.data hay.data

def jsStartsWith (s p : String) : Bool := p.data.isPrefixOf s.data

inductive ActionCategory : Type where
  | navigation | interaction | assertion | wait | utility
deriving DecidableEq, Repr

/-- One entry of the `TEST_ACTIONS` catalog.  The source field `syntax` is
called `stx` here (the original name is not available in Lean). -/
structure TestAction where
  name : String
  description : String
  stx : String
  category : ActionCategory
  parameters : Option (List String)
deriving DecidableEq, Repr

/-- The static `TEST_ACTIONS` catalog of `TestCaseHeader.tsx`, in its
declared order. -/
def TEST_ACTIONS : List TestAction := [
  ⟨"navigate", "Navigate to a URL", "navigate {url}", .navigation, some ["url"]⟩,
  ⟨"back", "Go back in browser history", "back", .navigation, none⟩,
  ⟨"forward", "Go forward in browser history", "forward", .navigation, none⟩,
  ⟨"refresh", "Refresh the current page", "refresh", .navigation, none⟩,
  ⟨"click", "Click on an element", "click {element}", .interaction, some ["element"]⟩,
  ⟨"type", "Type text into an input field", "type {element} \"{text}\"", .interaction, some ["element", "text"]⟩,
  ⟨"clear", "Clear text from an input field", "clear {element}", .interaction, some ["element"]⟩,
  ⟨"select", "Select an option from dropdown", "select {element} \"{option}\"", .interaction, some ["element", "option"]⟩,
  ⟨"hover", "Hover over an element", "hover {element}", .interaction, some ["element"]⟩,
  ⟨"drag", "Drag element to target", "drag {source} {target}", .interaction, some ["source", "target"]⟩,
  ⟨"scroll", "Scroll to an element", "scroll {element}", .interaction, some ["element"]⟩,
  ⟨"assert", "Assert element is visible", "assert {element} visible", .assertion, some ["element", "condition"]⟩,
  ⟨"verify", "Verify text content", "verify {element} contains \"{text}\"", .assertion, some ["element", "text"]⟩,
  ⟨"assertText", "Assert exact text match", "assertText {element} \"{text}\"", .assertion, some ["element", "text"]⟩,
  ⟨"assertUrl", "Assert current URL", "assertUrl \"{url}\"", .assertion, some ["url"]⟩,
  ⟨"waitFor", "Wait for element to appear", "waitFor {element}", .wait, some ["element"]⟩,
  ⟨"waitForText", "Wait for text to appear", "waitForText {element} \"{text}\"", .wait, some ["element", "text"]⟩,
  ⟨"sleep", "Wait for specified time", "sleep {milliseconds}", .wait, some ["milliseconds"]⟩,
  ⟨"screenshot", "Take a screenshot", "screenshot \"{name}\"", .utility, some ["name"]⟩,
  ⟨"launch", "Launch browser", "launch {browser}", .utility, some ["browser"]⟩,
  ⟨"close", "Close browser", "close", .utility, none⟩]

/-- The static `PAGE_OBJECTS` catalog of `TestCaseHeader.tsx`, in its
declared order. -/
def PAGE_OBJECTS : List String := [
  "loginButton", "emailInput", "passwordInput", "submitButton", "cancelButton",
  "usernameField", "confirmPasswordField", "rememberMeCheckbox", "forgotPasswordLink",
  "headerMenu", "footerMenu", "navigationBar", "breadcrumbs", "sidebarMenu",
  "homeLink", "profileLink", "settingsLink", "logoutLink",
  "searchBox", "searchButton", "filterDropdown", "sortDropdown", "paginationNext",
  "paginationPrevious", "itemsList", "tableRows", "cardContainer",
  "shoppingCart", "addToCartButton", "buyNowButton", "quantityInput", "priceDisplay",
  "checkoutButton", "paymentForm", "shippingForm",
  "firstNameInput", "lastNameInput", "phoneInput", "addressInput", "cityInput",
  "stateDropdown", "zipCodeInput", "countryDropdown", "datePickerInput",
  "modal", "dialog", "confirmDialog", "alertDialog", "closeModalButton",
  "modalTitle", "modalContent", "modalActions"]

/-- Lexicographic (codepoint) order on character lists; models the
ascending order produced by `localeCompare` on the catalog's ASCII
identifiers. -/
def lexLe : List Char → List Char → Bool
  | [], _ => true
  | _ :: _, [] => false
  | a :: as, b :: bs =>
      if a < b then true
      else if b < a then false
      else lexLe as bs

/-- The filter of `getActionSuggestions`: lower-cased name or lower-cased
description contains the normalized query. -/
def actionMatches (nq : String) (a : TestAction) : Bool :=
  jsIncludes (jsToLower a.name) nq || jsIncludes (jsToLower a.description) nq

/-- `a` may come weakly before `b` under the comparator of
`getActionSuggestions` (entries whose lower-cased name starts with the
query first, then by name). -/
def actionLeB (nq : String) (a b : TestAction) : Bool :=
  let aE := jsStartsWith (jsToLower a.name) nq
  let bE := jsStartsWith (jsToLower b.name) nq
  if aE && !bE then true
  else if !aE && bE then false
  else lexLe a.name.data b.name.data

/-- `getActionSuggestions(input)` (`TestCaseHeader.tsx` lines 167–187). -/
def getActionSuggestions (input : String) : List TestAction :=
  let nq := jsTrim (jsToLower input)
  if nq = "" then TEST_ACTIONS.take 10
  else
    List.insertionSort (fun a b => actionLeB nq a b = true)
      (TEST_ACTIONS.filter (actionMatches nq))

def objectMatches (nq : String) (o : String) : Bool :=
  jsIncludes (jsToLower o) nq

def objectLeB (nq : String) (a b : String) : Bool :=
  let aE := jsStartsWith (jsToLower a) nq
  let bE := jsStartsWith (jsToLower b) nq
  if aE && !bE then true
  else if !aE && bE then false
  else lexLe a.data b.data

/-- `getObjectSuggestions(input)` (`TestCaseHeader.tsx` lines 189–208). -/
def getObjectSuggestions (input : String) : List String :=
  let nq := jsTrim (jsToLower input)
  if nq = "" then PAGE_OBJECTS.take 10
  else
    List.insertionSort (fun a b => objectLeB nq a b = true)
      (PAGE_OBJECTS.filter (objectMatches nq))

/-!
## Suggestion-context classifier

Embedded from `triggerSuggestions` in the step-input component
(`src/unnamed/part_002`, lines 78–97): it splits the text before the
cursor on single spaces (JavaScript `split(' ')`, which keeps empty
fragments and yields `[""]` on the empty string), takes the last fragment
as the current word, and classifies as action-context when the split has
exactly one fragment or the text before the cursor trims to empty.
-/

inductive SuggestionType : Type where
  | action | object
deriving DecidableEq, Repr

/-- JavaScript `text.split(' ')`. -/
def splitOnSpace : List Char → List (List Char)
  | [] => [[]]
  | c :: rest =>
      if c = ' ' then [] :: splitOnSpace rest
      else
        match splitOnSpace rest with
        | [] => [[c]]
        | w :: ws => (c :: w) :: ws

/-- `triggerSuggestions` with the editor state (text value and cursor
position) made explicit; returns which suggestion list is queried and the
search term passed to it. -/
def triggerSuggestions (value : String) (cursorPos : Nat) :
    SuggestionType × String :=
  let textBeforeCursor : String := ⟨value.data.take cursorPos⟩
  let words := splitOnSpace textBeforeCursor.data
  let currentWord : String := ⟨words.getLastD []⟩
  if words.length = 1 ∨ jsTrim textBeforeCursor = "" then
    (SuggestionType.action, currentWord)
  else
    (SuggestionType.object, currentWord)

/-- The lower-cased entry `name` starts with the normalized query — the
priority key of the suggestion comparator. -/
def startsName (nq : String) (a : TestAction) : Bool :=
  jsStartsWith (jsToLower a.name) nq

/-!
## Lemmas about the modelled string primitives
-/

theorem toLower_of_isWhitespace {c : Char} (h : c.isWhitespace = true) :
    c.toLower = c := by
  simp only [Char.isWhitespace, Bool.or_eq_true, decide_eq_true_eq] at h
  rcases h with ((rfl | rfl) | rfl) | rfl <;> decide

theorem allWS_dropWhile_iff (p : Char → Bool) (l : List Char) :
    (∀ x ∈ l.dropWhile p, p x = true) ↔ ∀ x ∈ l, p x = true := by
  constructor
  · intro h x hx
    rw [← List.takeWhile_append_dropWhile p l] at hx
    rcases List.mem_append.mp hx with h2 | h2
    · exact List.mem_takeWhile_imp h2
    · exact h x h2
  · intro h x hx
    exact h x (List.dropWhile_subset p hx)

theorem trimList_eq_nil_iff {l : List Char} :
    trimList l = [] ↔ ∀ c ∈ l, c.isWhitespace = true := by
  unfold trimList
  rw [List.reverse_eq_nil_iff, List.dropWhile_eq_nil_iff]
  simp only [List.mem_reverse]
  exact allWS_dropWhile_iff _ l

theorem jsTrim_eq_empty_iff (s : String) :
    jsTrim s = "" ↔ ∀ c ∈ s.data, c.isWhitespace = true := by
  unfold jsTrim
  rw [String.ext_iff]
  exact trimList_eq_nil_iff

theorem jsToLower_data (s : String) : (jsToLower s).data = s.data.map Char.toLower :=
  rfl

theorem jsTrim_jsToLower_empty {s : String}
    (h : ∀ c ∈ s.data, c.isWhitespace = true) : jsTrim (jsToLower s) = "" := by
  rw [jsTrim_eq_empty_iff]
  intro c hc
  rw [jsToLower_data] at hc
  rcases List.mem_map.mp hc with ⟨d, hd, rfl⟩
  rw [toLower_of_isWhitespace (h d hd)]
  exact h d hd

/-!
## Basic lemmas about the tree model
-/

@[simp] theorem TreeNode.id_mk (i n : String) (t : NodeType) (s ind : Bool)
    (ch : Children) : (TreeNode.mk i n t s ind ch).id = i := rfl

@[simp] theorem TreeNode.type_mk (i n : String) (t : NodeType) (s ind : Bool)
    (ch : Children) : (TreeNode.mk i n t s ind ch).type = t := rfl

@[simp] theorem TreeNode.selected_mk (i n : String) (t : NodeType) (s ind : Bool)
    (ch : Children) : (TreeNode.mk i n t s ind ch).selected = s := rfl

@[simp] theorem TreeNode.indeterminate_mk (i n : String) (t : NodeType)
    (s ind : Bool) (ch : Children) :
    (TreeNode.mk i n t s ind ch).indeterminate = ind := rfl

@[simp] theorem TreeNode.children_mk (i n : String) (t : NodeType) (s ind : Bool)
    (ch : Children) : (TreeNode.mk i n t s ind ch).children = ch := rfl

@[simp] theorem NodeList.length_nil : NodeList.nil.length = 0 := rfl

@[simp] theorem NodeList.length_cons (hd : TreeNode) (tl : NodeList) :
    (NodeList.cons hd tl).length = tl.length + 1 := rfl

@[simp] theorem NodeList.toList_nil : NodeList.nil.toList = [] := rfl

@[simp] theorem NodeList.toList_cons (hd : TreeNode) (tl : NodeList) :
    (NodeList.cons hd tl).toList = hd :: tl.toList := rfl

theorem NodeList.length_eq_zero_iff {cs : NodeList} : cs.length = 0 ↔ cs = .nil := by
  cases cs <;> simp

@[simp] theorem countSelected_nil : countSelected .nil = 0 := rfl

@[simp] theorem countSelected_cons (hd : TreeNode) (tl : NodeList) :
    countSelected (.cons hd tl) =
      (if hd.selected then 1 else 0) + countSelected tl := rfl

@[simp] theorem countIndeterminate_nil : countIndeterminate .nil = 0 := rfl

@[simp] theorem countIndeterminate_cons (hd : TreeNode) (tl : NodeList) :
    countIndeterminate (.cons hd tl) =
      (if hd.indeterminate then 1 else 0) + countIndeterminate tl := rfl

theorem countSelected_le_length : ∀ (cs : NodeList), countSelected cs ≤ cs.length
  | .nil => by simp
  | .cons hd tl => by
      have ih := countSelected_le_length tl
      by_cases h : hd.selected <;> simp [h] <;> omega

theorem countSelected_eq_length_iff :
    ∀ (cs : NodeList),
      countSelected cs = cs.length ↔ ∀ c ∈ cs.toList, c.selected = true
  | .nil => by simp
  | .cons hd tl => by
      have ih := countSelected_eq_length_iff tl
      have hle := countSelected_le_length tl
      by_cases h : hd.selected
      · have hcancel : (1 + countSelected tl = tl.length + 1) ↔
            countSelected tl = tl.length := by omega
        simp [h, hcancel, ih]
      · constructor
        · intro heq
          exfalso
          have hcs : countSelected (NodeList.cons hd tl) = countSelected tl := by
            simp [h]
          have hlen : (NodeList.cons hd tl).length = tl.length + 1 := rfl
          omega
        · intro hall
          exact absurd (hall hd (by simp)) h

theorem countSelected_eq_zero_iff :
    ∀ (cs : NodeList),
      countSelected cs = 0 ↔ ∀ c ∈ cs.toList, c.selected = false
  | .nil => by simp
  | .cons hd tl => by
      have ih := countSelected_eq_zero_iff tl
      by_cases h : hd.selected <;> simp [h, ih]

theorem countIndeterminate_eq_zero_iff :
    ∀ (cs : NodeList),
      countIndeterminate cs = 0 ↔ ∀ c ∈ cs.toList, c.indeterminate = false
  | .nil => by simp
  | .cons hd tl => by
      have ih := countIndeterminate_eq_zero_iff tl
      by_cases h : hd.indeterminate <;> simp [h, ih]

@[simp] theorem NodeList.allNodes_nil : NodeList.allNodes .nil = [] := rfl

@[simp] theorem NodeList.allNodes_cons (hd : TreeNode) (tl : NodeList) :
    NodeList.allNodes (.cons hd tl) = hd.allNodes ++ tl.allNodes := rfl

@[simp] theorem TreeNode.allNodes_undef (i n : String) (t : NodeType) (s ind : Bool) :
    (TreeNode.mk i n t s ind .undef).allNodes = [.mk i n t s ind .undef] := rfl

@[simp] theorem TreeNode.allNodes_arr (i n : String) (t : NodeType) (s ind : Bool)
    (cs : NodeList) :
    (TreeNode.mk i n t s ind (.arr cs)).allNodes =
      .mk i n t s ind (.arr cs) :: cs.allNodes := rfl

@[simp] theorem updateParentState_undef (i n : String) (t : NodeType) (s ind : Bool) :
    updateParentState (.mk i n t s ind .undef) = .mk i n t s ind .undef := rfl

@[simp] theorem updateParentState_arr (i n : String) (t : NodeType) (s ind : Bool)
    (cs : NodeList) :
    updateParentState (.mk i n t s ind (.arr cs)) =
      .mk i n t (computeFlags cs).1 (computeFlags cs).2 (.arr cs) := rfl

mutual
theorem updateAllChild_ids (v : Bool) :
    ∀ (n : TreeNode),
      ((updateAllChild v n).allNodes).map TreeNode.id = n.allNodes.map TreeNode.id
  | .mk i nm t s ind .undef => by simp [updateAllChild]
  | .mk i nm t s ind (.arr cs) => by
      simp [updateAllChild, updateAllChildren_ids v cs]
theorem updateAllChildren_ids (v : Bool) :
    ∀ (cs : NodeList),
      ((updateAllChildren cs v).allNodes).map TreeNode.id = cs.allNodes.map TreeNode.id
  | .nil => by simp [updateAllChildren]
  | .cons hd tl => by
      simp [updateAllChildren, updateAllChild_ids v hd, updateAllChildren_ids v tl]
end

mutual
theorem updateNode_ids (nodeId : String) (v : Bool) :
    ∀ (n : TreeNode),
      ((updateNode n nodeId v).allNodes).map TreeNode.id = n.allNodes.map TreeNode.id
  | .mk i nm t s ind .undef => by
      by_cases hid : i = nodeId <;> simp [updateNode, hid]
  | .mk i nm t s ind (.arr cs) => by
      by_cases hid : i = nodeId
      · simp [updateNode, hid, updateAllChildren_ids v cs]
      · simp [updateNode, hid, updateNodeSelection_ids nodeId v cs]
theorem updateNodeSelection_ids (nodeId : String) (v : Bool) :
    ∀ (ns : NodeList),
      ((updateNodeSelection ns nodeId v).allNodes).map TreeNode.id =
        ns.allNodes.map TreeNode.id
  | .nil => by simp [updateNodeSelection]
  | .cons hd tl => by
      simp [updateNodeSelection, updateNode_ids nodeId v hd,
        updateNodeSelection_ids nodeId v tl]
end

mutual
theorem TreeNode.allNodes_trans_node :
    ∀ (n : TreeNode), ∀ m ∈ n.allNodes, ∀ x ∈ m.allNodes, x ∈ n.allNodes
  | .mk i nm t s ind .undef => by
      intro m hm x hx
      simp only [TreeNode.allNodes_undef, List.mem_singleton] at hm
      subst hm
      exact hx
  | .mk i nm t s ind (.arr cs) => by
      intro m hm x hx
      rcases List.mem_cons.mp hm with h | h
      · subst h; exact hx
      · exact List.mem_cons_of_mem _ (NodeList.allNodes_trans_list cs m h x hx)
theorem NodeList.allNodes_trans_list :
    ∀ (l : NodeList), ∀ m ∈ l.allNodes, ∀ x ∈ m.allNodes, x ∈ l.allNodes
  | .nil => by intro m hm; simp at hm
  | .cons hd tl => by
      intro m hm x hx
      rcases List.mem_append.mp hm with h | h
      · exact List.mem_append_left _ (TreeNode.allNodes_trans_node hd m h x hx)
      · exact List.mem_append_right _ (NodeList.allNodes_trans_list tl m h x hx)
end

/-!
## Claim theorems — concrete behaviour of the selection engine
-/

/-- Claim C1 (code bug): the spec claims that no node ever has
`selected == true` and `indeterminate == true` simultaneously under any
sequence of `setNodeSelected` calls.  The code violates this: starting from
the all-unselected demo tree, selecting leaf `A` (which makes folder `F`
indeterminate) and then selecting `F` itself leaves `F` with both flags
true, because the target branch of `updateNodeSelection` builds
`{ ...node, selected }` without clearing the target's own `indeterminate`. -/
theorem triState_violated_after_two_selects :
    ∃ m ∈ NodeList.allNodes demoTree2, m.selected = true ∧ m.indeterminate = true := by
  decide

/-- Claim C3 (code bug): the spec claims that after selecting a folder,
every descendant ends `selected = true, indeterminate = false` AND the
folder itself ends `selected = true, indeterminate = false`.  In
`demoTree2` (select leaf `A`, then select folder `F`) the descendants are
indeed all forced to `selected = true, indeterminate = false`, but the
target folder `F` itself retains its stale `indeterminate = true`. -/
theorem folder_select_keeps_stale_indeterminate :
    findFolder demoTree2 "F" =
      some (.mk "F" "F" .folder true true
        (.arr (.cons (.mk "A" "A" .test true false .undef)
          (.cons (.mk "B" "B" .test true false .undef) .nil)))) := by
  decide

/-- Claim C4 (counterexample): `setNodeSelected` with an id absent from the
tree is NOT always a no-op.  On a tree holding a folder with an empty
children array (exactly what `createNewFolder` produces), the recursive
rebuild applies `updateParentState` to the folder even though the target id
is nowhere in the tree, and the empty-children recompute flips its
`selected` to `true`. -/
theorem missing_id_call_changes_tree :
    updateNodeSelection emptyFolderTree "nonexistent" true ≠ emptyFolderTree := by
  decide

/-- Claim C5 (counterexample): `getSelectedTestCasesInFolder` does not
return the selected test descendants at all depths: in `deepTree`, the
folder `F` has a selected test `T` two levels down (inside subfolder `G`),
yet the collection for scope `F` is empty, because the code only scans the
scope node's DIRECT children. -/
theorem collect_misses_deep_descendant :
    getSelectedTestCasesInFolder deepTree "F" = [] ∧
    ∃ m ∈ TreeNode.allNodes deepFolder, m.type = NodeType.test ∧ m.selected = true := by
  decide

/-- Claim C10 (counterexample): it is not true that EVERY call rebuilds an
empty-children node with `selected = true`: when the call targets the
empty-children node itself with value `false`, the target branch applies
`selected = false` to it instead of the parent-recompute. -/
theorem empty_children_target_keeps_value :
    (NodeList.allNodes (updateNodeSelection emptyFolderTree "f" false)).map
      (fun m => (m.selected, m.indeterminate, m.children)) =
      [(false, false, Children.arr .nil)] := by
  decide

/-- Claim C9: the suggestion-context classifier takes the text before the
cursor, splits it on spaces, always uses the last fragment as the query,
and selects action-context exactly when the split has exactly one fragment
or the text before the cursor is empty or whitespace-only; otherwise it
selects object-context. -/
theorem suggestion_context_classifier (value : String) (cursorPos : Nat) :
    (triggerSuggestions value cursorPos).2 =
      ⟨(splitOnSpace (value.data.take cursorPos)).getLastD []⟩ ∧
    ((triggerSuggestions value cursorPos).1 = SuggestionType.action ↔
      (splitOnSpace (value.data.take cursorPos)).length = 1 ∨
        ∀ c ∈ value.data.take cursorPos, c.isWhitespace = true) := by
  have hws : jsTrim (⟨value.data.take cursorPos⟩ : String) = "" ↔
      ∀ c ∈ value.data.take cursorPos, c.isWhitespace = true :=
    jsTrim_eq_empty_iff _
  have heq : triggerSuggestions value cursorPos =
      if (splitOnSpace (value.data.take cursorPos)).length = 1 ∨
          jsTrim (⟨value.data.take cursorPos⟩ : String) = "" then
        (SuggestionType.action, ⟨(splitOnSpace (value.data.take cursorPos)).getLastD []⟩)
      else
        (SuggestionType.object, ⟨(splitOnSpace (value.data.take cursorPos)).getLastD []⟩) :=
    rfl
  by_cases h : (splitOnSpace (value.data.take cursorPos)).length = 1 ∨
      jsTrim (⟨value.data.take cursorPos⟩ : String) = ""
  · rw [heq, if_pos h]
    refine ⟨rfl, ?_⟩
    simp only [true_iff, iff_true]
    rcases h with h | h
    · exact Or.inl h
    · exact Or.inr (hws.mp h)
  · rw [heq, if_neg h]
    refine ⟨rfl, ?_⟩
    constructor
    · intro habs
      exact absurd habs (by simp)
    · intro hcond
      exfalso
      apply h
      rcases hcond with hc | hc
      · exact Or.inl hc
      · exact Or.inr (hws.mpr hc)

/-!
## Idempotence of the selection update
-/

mutual
theorem updateAllChild_idem (v : Bool) :
    ∀ n, updateAllChild v (updateAllChild v n) = updateAllChild v n
  | .mk i nm t s ind .undef => rfl
  | .mk i nm t s ind (.arr cs) => by
      simp [updateAllChild, updateAllChildren_idem v cs]
theorem updateAllChildren_idem (v : Bool) :
    ∀ cs, updateAllChildren (updateAllChildren cs v) v = updateAllChildren cs v
  | .nil => rfl
  | .cons hd tl => by
      simp [updateAllChildren, updateAllChild_idem v hd, updateAllChildren_idem v tl]
end

mutual
theorem updateNode_idem (nodeId : String) (v : Bool) :
    ∀ n, updateNode (updateNode n nodeId v) nodeId v = updateNode n nodeId v
  | .mk i nm t s ind .undef => by
      by_cases hid : i = nodeId <;> simp [updateNode, hid]
  | .mk i nm t s ind (.arr cs) => by
      by_cases hid : i = nodeId
      · simp [updateNode, hid, updateAllChildren_idem v cs]
      · simp [updateNode, hid, updateNodeSelection_idem nodeId v cs]
theorem updateNodeSelection_idem (nodeId : String) (v : Bool) :
    ∀ ns, updateNodeSelection (updateNodeSelection ns nodeId v) nodeId v =
      updateNodeSelection ns nodeId v
  | .nil => rfl
  | .cons hd tl => by
      simp [updateNodeSelection, updateNode_idem nodeId v hd,
        updateNodeSelection_idem nodeId v tl]
end

/-- Claim C6: applying `setNodeSelected(tree, id, true)` twice in a row
yields the same tree as applying it once, for any id present in the tree
(the proof does not even need the presence assumption). -/
theorem setNodeSelected_idempotent (ns : NodeList) (nodeId : String)
    (_hpresent : nodeId ∈ ns.ids) :
    updateNodeSelection (updateNodeSelection ns nodeId true) nodeId true =
      updateNodeSelection ns nodeId true :=
  updateNodeSelection_idem nodeId true ns

/-- Witness for C6 at the concrete demo tree and leaf id `A`. -/
theorem setNodeSelected_idempotent_witness :
    updateNodeSelection (updateNodeSelection demoTree "A" true) "A" true =
      updateNodeSelection demoTree "A" true :=
  setNodeSelected_idempotent demoTree "A" (by decide)

/-!
## Missing-id calls on derived-flag-consistent trees
-/

mutual
theorem updateNode_consistent_noop (nodeId : String) (v : Bool) :
    ∀ n, consistentN n = true → nodeId ∉ n.allNodes.map TreeNode.id →
      updateNode n nodeId v = n
  | .mk i nm t s ind .undef => by
      intro hcons hnid
      have hid : ¬ i = nodeId := by
        simp only [TreeNode.allNodes_undef, List.map_cons, List.map_nil,
          List.mem_singleton, TreeNode.id_mk] at hnid
        exact fun h => hnid h.symm
      simp [updateNode, hid]
  | .mk i nm t s ind (.arr cs) => by
      intro hcons hnid
      simp only [consistentN, Bool.and_eq_true, beq_iff_eq] at hcons
      obtain ⟨⟨hs, hind⟩, hcl⟩ := hcons
      simp only [TreeNode.allNodes_arr, List.map_cons, List.mem_cons,
        TreeNode.id_mk] at hnid
      push_neg at hnid
      obtain ⟨hne, hnid2⟩ := hnid
      have hid : ¬ i = nodeId := fun h => hne h.symm
      have hrec := updateNodeSelection_consistent_noop nodeId v cs hcl (by
        intro hmem
        exact hnid2 hmem)
      simp [updateNode, hid, hrec, hs, hind]
theorem updateNodeSelection_consistent_noop (nodeId : String) (v : Bool) :
    ∀ ns, consistentL ns = true → nodeId ∉ ns.ids →
      updateNodeSelection ns nodeId v = ns
  | .nil => by intro _ _; rfl
  | .cons hd tl => by
      intro hcons hnid
      simp only [consistentL, Bool.and_eq_true] at hcons
      simp only [NodeList.ids, NodeList.allNodes_cons, List.map_append,
        List.mem_append] at hnid
      push_neg at hnid
      simp [updateNodeSelection,
        updateNode_consistent_noop nodeId v hd hcons.1 hnid.1,
        updateNodeSelection_consistent_noop nodeId v tl hcons.2 (by
          intro hmem; exact hnid.2 hmem)]
end

/-- Claim C4 (amended): on a tree whose derived `selected`/`indeterminate`
flags are already consistent with the child-derived recompute,
`setNodeSelected` with an id not present in the tree returns the tree
unchanged, and being a total function it cannot raise.  In general a
missing-id call is NOT a no-op: it re-derives the flags of every
children-bearing node, so any tree with stale derived flags changes —
a tree holding a freshly created empty-children folder, and even engine
outputs such as `demoTree2`, whose folder keeps a stale `indeterminate`
through the bug shown for C1/C3. -/
theorem missing_id_noop_on_consistent (ns : NodeList) (nodeId : String)
    (v : Bool) (hcons : consistentL ns = true) (hmissing : nodeId ∉ ns.ids) :
    updateNodeSelection ns nodeId v = ns :=
  updateNodeSelection_consistent_noop nodeId v ns hcons hmissing

/-- Witness for the amended C4 on the consistent demo tree. -/
theorem missing_id_noop_on_consistent_witness :
    updateNodeSelection demoTree "nonexistent" true = demoTree :=
  missing_id_noop_on_consistent demoTree "nonexistent" true (by decide) (by decide)

/-!
## Empty-children nodes under the rebuild
-/

mutual
theorem updateAllChild_forces (v : Bool) :
    ∀ n, ∀ m ∈ (updateAllChild v n).allNodes,
      m.selected = v ∧ m.indeterminate = false
  | .mk i nm t s ind .undef => by
      intro m hm
      simp only [updateAllChild, TreeNode.allNodes_undef, List.mem_singleton] at hm
      subst hm
      exact ⟨rfl, rfl⟩
  | .mk i nm t s ind (.arr cs) => by
      intro m hm
      simp only [updateAllChild, TreeNode.allNodes_arr, List.mem_cons] at hm
      rcases hm with rfl | hm
      · exact ⟨rfl, rfl⟩
      · exact updateAllChildren_forces v cs m hm
theorem updateAllChildren_forces (v : Bool) :
    ∀ cs, ∀ m ∈ (updateAllChildren cs v).allNodes,
      m.selected = v ∧ m.indeterminate = false
  | .nil => by intro m hm; simp [updateAllChildren] at hm
  | .cons hd tl => by
      intro m hm
      simp only [updateAllChildren, NodeList.allNodes_cons, List.mem_append] at hm
      rcases hm with hm | hm
      · exact updateAllChild_forces v hd m hm
      · exact updateAllChildren_forces v tl m hm
end

theorem computeFlags_nil : computeFlags .nil = (true, false) := rfl

@[simp] theorem TreeNode.descIds_undef (i n : String) (t : NodeType) (s ind : Bool)
    (nodeId : String) : (TreeNode.mk i n t s ind .undef).descIds nodeId = [] := rfl

@[simp] theorem TreeNode.descIds_arr (i n : String) (t : NodeType) (s ind : Bool)
    (cs : NodeList) (nodeId : String) :
    (TreeNode.mk i n t s ind (.arr cs)).descIds nodeId =
      if i = nodeId then NodeList.ids cs else NodeList.descIds cs nodeId := rfl

@[simp] theorem NodeList.descIds_nil (nodeId : String) :
    NodeList.descIds .nil nodeId = [] := rfl

@[simp] theorem NodeList.descIds_cons (hd : TreeNode) (tl : NodeList)
    (nodeId : String) :
    NodeList.descIds (.cons hd tl) nodeId =
      hd.descIds nodeId ++ NodeList.descIds tl nodeId := rfl

mutual
theorem TreeNode.descIds_subset_node :
    ∀ (n : TreeNode) (nodeId : String),
      ∀ x ∈ n.descIds nodeId, x ∈ n.allNodes.map TreeNode.id
  | .mk i nm t s ind .undef, nodeId => by
      intro x hx
      simp at hx
  | .mk i nm t s ind (.arr cs), nodeId => by
      intro x hx
      rw [TreeNode.descIds_arr] at hx
      by_cases hid : i = nodeId
      · rw [if_pos hid] at hx
        simp only [TreeNode.allNodes_arr, List.map_cons, List.mem_cons, TreeNode.id_mk]
        exact Or.inr hx
      · rw [if_neg hid] at hx
        simp only [TreeNode.allNodes_arr, List.map_cons, List.mem_cons, TreeNode.id_mk]
        exact Or.inr (NodeList.descIds_subset_list cs nodeId x hx)
theorem NodeList.descIds_subset_list :
    ∀ (l : NodeList) (nodeId : String),
      ∀ x ∈ l.descIds nodeId, x ∈ NodeList.ids l
  | .nil, nodeId => by
      intro x hx
      simp at hx
  | .cons hd tl, nodeId => by
    intro x hx
    have hids : NodeList.ids (.cons hd tl) =
        hd.allNodes.map TreeNode.id ++ NodeList.ids tl := by
      simp [NodeList.ids]
    rw [hids]
    rcases List.mem_append.mp hx with h | h
    · exact List.mem_append_left _ (TreeNode.descIds_subset_node hd nodeId x h)
    · exact List.mem_append_right _ (NodeList.descIds_subset_list tl nodeId x h)
end

theorem updateNodeSelection_empty_children :
    ∀ (ns : NodeList) (nodeId : String) (v : Bool), (NodeList.ids ns).Nodup →
      ∀ m ∈ (updateNodeSelection ns nodeId v).allNodes,
        m.children = Children.arr .nil →
        (m.id ≠ nodeId → m.id ∉ NodeList.descIds ns nodeId →
          m.selected = true ∧ m.indeterminate = false) ∧
        ((m.id = nodeId ∨ m.id ∈ NodeList.descIds ns nodeId) → m.selected = v)
  | .nil, nodeId, v, hnd, m, hm, hch => by
      simp [updateNodeSelection] at hm
  | .cons (.mk i nm t s ind .undef) tl, nodeId, v, hnd, m, hm, hch => by
      have hndtl : (NodeList.ids tl).Nodup := by
        have : NodeList.ids (.cons (.mk i nm t s ind .undef) tl) =
            [i] ++ NodeList.ids tl := rfl
        rw [this] at hnd
        exact (List.nodup_append.mp hnd).2.1
      simp only [updateNodeSelection, NodeList.allNodes_cons, List.mem_append] at hm
      rcases hm with hm | hm
      · -- the childless head cannot be an empty-children-array node
        exfalso
        by_cases hid : i = nodeId <;> simp [updateNode, hid] at hm <;>
          subst hm <;> simp at hch
      · have ih := updateNodeSelection_empty_children tl nodeId v hndtl m hm hch
        simpa using ih
  | .cons (.mk i nm t s ind (.arr cs)) tl, nodeId, v, hnd, m, hm, hch => by
      have hsplit : NodeList.ids (.cons (.mk i nm t s ind (.arr cs)) tl) =
          i :: (NodeList.ids cs ++ NodeList.ids tl) := by
        simp [NodeList.ids]
      rw [hsplit] at hnd
      have hninl : i ∉ NodeList.ids cs ++ NodeList.ids tl :=
        (List.nodup_cons.mp hnd).1
      have hnd2 : (NodeList.ids cs ++ NodeList.ids tl).Nodup :=
        (List.nodup_cons.mp hnd).2
      have hndcs : (NodeList.ids cs).Nodup := (List.nodup_append.mp hnd2).1
      have hndtl : (NodeList.ids tl).Nodup := (List.nodup_append.mp hnd2).2.1
      have hdisj : ∀ x, x ∈ NodeList.ids cs → x ∈ NodeList.ids tl → False := by
        have hd := (List.nodup_append.mp hnd2).2.2
        intro x hx1 hx2
        exact hd hx1 hx2
      simp only [updateNodeSelection, NodeList.allNodes_cons, List.mem_append] at hm
      by_cases hid : i = nodeId
      · have hdesc : NodeList.descIds (.cons (.mk i nm t s ind (.arr cs)) tl) nodeId =
            NodeList.ids cs ++ NodeList.descIds tl nodeId := by
          simp [hid]
        rcases hm with hm | hm
        · simp [updateNode, hid] at hm
          rcases hm with rfl | hm
          · -- m is the target node itself
            constructor
            · intro hne _
              exact absurd (by simp [hid]) hne
            · intro _
              rfl
          · -- m lies inside the target's forced subtree
            have hforce := updateAllChildren_forces v cs m hm
            refine ⟨?_, fun _ => hforce.1⟩
            intro hne hnmem
            exfalso
            apply hnmem
            rw [hdesc]
            apply List.mem_append_left
            have hmem : m.id ∈ (updateAllChildren cs v).allNodes.map TreeNode.id :=
              List.mem_map.mpr ⟨m, hm, rfl⟩
            rwa [updateAllChildren_ids] at hmem
        · -- m lies in the updated tail
          have ih := updateNodeSelection_empty_children tl nodeId v hndtl m hm hch
          have hmid : m.id ∈ NodeList.ids tl := by
            have hmem : m.id ∈
                (updateNodeSelection tl nodeId v).allNodes.map TreeNode.id :=
              List.mem_map.mpr ⟨m, hm, rfl⟩
            rwa [updateNodeSelection_ids] at hmem
          constructor
          · intro hne hnmem
            refine ih.1 hne ?_
            intro hmem
            exact hnmem (by rw [hdesc]; exact List.mem_append_right _ hmem)
          · intro hcase
            refine ih.2 ?_
            rcases hcase with hcase | hcase
            · exact Or.inl hcase
            · rw [hdesc] at hcase
              rcases List.mem_append.mp hcase with hcase | hcase
              · exact absurd hmid (fun hmem => hdisj _ hcase hmem)
              · exact Or.inr hcase
      · have hdesc : NodeList.descIds (.cons (.mk i nm t s ind (.arr cs)) tl) nodeId =
            NodeList.descIds cs nodeId ++ NodeList.descIds tl nodeId := by
          simp [hid]
        rcases hm with hm | hm
        · simp [updateNode, hid] at hm
          rcases hm with rfl | hm
          · -- m is the recomputed (non-target) head; empty children means
            -- the 0 === 0 branch applies
            have hnil : updateNodeSelection cs nodeId v = .nil := by
              simpa using hch
            constructor
            · intro _ _
              simp [hnil, computeFlags_nil]
            · intro hcase
              exfalso
              rcases hcase with hcase | hcase
              · exact hid (by simpa using hcase)
              · rw [hdesc] at hcase
                simp only [TreeNode.id_mk] at hcase
                rcases List.mem_append.mp hcase with hcase | hcase
                · exact hninl (List.mem_append_left _
                    (NodeList.descIds_subset_list cs nodeId _ hcase))
                · exact hninl (List.mem_append_right _
                    (NodeList.descIds_subset_list tl nodeId _ hcase))
          · -- m lies deeper inside the updated children of the head
            have ih := updateNodeSelection_empty_children cs nodeId v hndcs m hm hch
            have hmid : m.id ∈ NodeList.ids cs := by
              have hmem : m.id ∈
                  (updateNodeSelection cs nodeId v).allNodes.map TreeNode.id :=
                List.mem_map.mpr ⟨m, hm, rfl⟩
              rwa [updateNodeSelection_ids] at hmem
            constructor
            · intro hne hnmem
              refine ih.1 hne ?_
              intro hmem
              exact hnmem (by rw [hdesc]; exact List.mem_append_left _ hmem)
            · intro hcase
              refine ih.2 ?_
              rcases hcase with hcase | hcase
              · exact Or.inl hcase
              · rw [hdesc] at hcase
                rcases List.mem_append.mp hcase with hcase | hcase
                · exact Or.inr hcase
                · exact absurd (NodeList.descIds_subset_list tl nodeId _ hcase)
                    (fun hmem => hdisj _ hmid hmem)
        · -- m lies in the updated tail of a non-target head
          have ih := updateNodeSelection_empty_children tl nodeId v hndtl m hm hch
          have hmid : m.id ∈ NodeList.ids tl := by
            have hmem : m.id ∈
                (updateNodeSelection tl nodeId v).allNodes.map TreeNode.id :=
              List.mem_map.mpr ⟨m, hm, rfl⟩
            rwa [updateNodeSelection_ids] at hmem
          constructor
          · intro hne hnmem
            refine ih.1 hne ?_
            intro hmem
            exact hnmem (by rw [hdesc]; exact List.mem_append_right _ hmem)
          · intro hcase
            refine ih.2 ?_
            rcases hcase with hcase | hcase
            · exact Or.inl hcase
            · rw [hdesc] at hcase
              rcases List.mem_append.mp hcase with hcase | hcase
              · exact absurd (NodeList.descIds_subset_list cs nodeId _ hcase)
                  (fun hmem => hdisj _ hmem hmid)
              · exact Or.inr hcase

/-- Claim C10 (amended): on a well-formed tree (unique ids), every call to
`setNodeSelected` rebuilds every node whose children field is an empty
array with `selected = true` and `indeterminate = false` — the `0 === 0`
branch of the parent recompute, which runs on every children-bearing node,
in particular when the target id is absent from the tree — except when
that node is the target itself or a strict descendant of the target, in
which case its `selected` becomes the call's value instead. -/
theorem empty_children_rebuilt_selected (ns : NodeList) (nodeId : String)
    (v : Bool) (hnd : (NodeList.ids ns).Nodup) :
    ∀ m ∈ (updateNodeSelection ns nodeId v).allNodes,
      m.children = Children.arr .nil →
      (m.id ≠ nodeId → m.id ∉ NodeList.descIds ns nodeId →
        m.selected = true ∧ m.indeterminate = false) ∧
      ((m.id = nodeId ∨ m.id ∈ NodeList.descIds ns nodeId) → m.selected = v) :=
  updateNodeSelection_empty_children ns nodeId v hnd

/-- Witness for the amended C10: a call with an id absent from the tree
flips the empty `createNewFolder` folder (neither the target nor one of
its descendants) to `selected = true`, `indeterminate = false`. -/
theorem empty_children_rebuilt_selected_witness :
    ((TreeNode.mk "f" "New Folder" NodeType.folder true false
        (Children.arr .nil)).id ≠ "nonexistent" →
      (TreeNode.mk "f" "New Folder" NodeType.folder true false
        (Children.arr .nil)).id ∉ NodeList.descIds emptyFolderTree "nonexistent" →
      (TreeNode.mk "f" "New Folder" NodeType.folder true false
        (Children.arr .nil)).selected = true ∧
      (TreeNode.mk "f" "New Folder" NodeType.folder true false
        (Children.arr .nil)).indeterminate = false) ∧
    (((TreeNode.mk "f" "New Folder" NodeType.folder true false
        (Children.arr .nil)).id = "nonexistent" ∨
      (TreeNode.mk "f" "New Folder" NodeType.folder true false
        (Children.arr .nil)).id ∈ NodeList.descIds emptyFolderTree "nonexistent") →
      (TreeNode.mk "f" "New Folder" NodeType.folder true false
        (Children.arr .nil)).selected = true) :=
  empty_children_rebuilt_selected emptyFolderTree "nonexistent" true (by decide)
    (TreeNode.mk "f" "New Folder" NodeType.folder true false (Children.arr .nil))
    (by decide) (by decide)

/-!
## Collection of selected direct test children
-/

theorem selTests_eq_filter :
    ∀ cs : NodeList,
      selTests cs =
        cs.toList.filter (fun c => c.type == NodeType.test && c.selected)
  | .nil => rfl
  | .cons hd tl => by
      have ih := selTests_eq_filter tl
      by_cases h : hd.type = NodeType.test ∧ hd.selected = true
      · simp [selTests, h, ih, List.filter_cons, h.1, h.2]
      · have hb : (hd.type == NodeType.test && hd.selected) = false := by
          rcases not_and_or.mp h with h1 | h1 <;> simp [h1]
        simp [selTests, h, ih, List.filter_cons, hb]

/-- Claim C5 (amended): for a scope node found in the tree with a present
children array, `getSelectedTestCasesInFolder` returns exactly the DIRECT
children of the scope node whose `type` is `test` and whose `selected` is
true, in child order; in particular it never returns a non-leaf (project
or folder) node. -/
theorem collect_returns_direct_selected_tests (ns : NodeList) (fid : String)
    (f : TreeNode) (cs : NodeList) (hfind : findFolder ns fid = some f)
    (hch : f.children = Children.arr cs) :
    getSelectedTestCasesInFolder ns fid =
      cs.toList.filter (fun c => c.type == NodeType.test && c.selected) ∧
    ∀ m ∈ getSelectedTestCasesInFolder ns fid,
      m.type = NodeType.test ∧ m.selected = true := by
  have hval : getSelectedTestCasesInFolder ns fid = selTests cs := by
    unfold getSelectedTestCasesInFolder
    rw [hfind]
    show (match f.children with
      | Children.undef => []
      | Children.arr cs2 => selTests cs2) = selTests cs
    rw [hch]
  refine ⟨by rw [hval, selTests_eq_filter], ?_⟩
  intro m hm
  rw [hval, selTests_eq_filter] at hm
  have := List.of_mem_filter hm
  simp only [Bool.and_eq_true, beq_iff_eq] at this
  exact this

/-- Witness for the amended C5 on a folder with three test children, one
selected. -/
theorem collect_returns_direct_selected_tests_witness :
    getSelectedTestCasesInFolder mixedTree "M" =
      ((NodeList.cons (.mk "T1" "T1" .test true false .undef)
        (.cons (.mk "T2" "T2" .test false false .undef)
          (.cons (.mk "T3" "T3" .test false false .undef) .nil))).toList.filter
        (fun c => c.type == NodeType.test && c.selected)) ∧
    ∀ m ∈ getSelectedTestCasesInFolder mixedTree "M",
      m.type = NodeType.test ∧ m.selected = true :=
  collect_returns_direct_selected_tests mixedTree "M" mixedFolder
    (NodeList.cons (.mk "T1" "T1" .test true false .undef)
      (.cons (.mk "T2" "T2" .test false false .undef)
        (.cons (.mk "T3" "T3" .test false false .undef) .nil)))
    (by decide) (by decide)

/-!
## Empty and whitespace-only suggestion queries
-/

/-- Claim C8: for every query that is empty or whitespace-only,
`getActionSuggestions` returns exactly the first 10 entries of
`TEST_ACTIONS` in catalog order and `getObjectSuggestions` returns exactly
the first 10 entries of `PAGE_OBJECTS` in catalog order. -/
theorem empty_query_returns_first_ten (s : String)
    (h : ∀ c ∈ s.data, c.isWhitespace = true) :
    getActionSuggestions s = TEST_ACTIONS.take 10 ∧
    getObjectSuggestions s = PAGE_OBJECTS.take 10 := by
  have hnq : jsTrim (jsToLower s) = "" := jsTrim_jsToLower_empty h
  constructor
  · simp [getActionSuggestions, hnq]
  · simp [getObjectSuggestions, hnq]

/-- Witness for C8 at the empty query. -/
theorem empty_query_returns_first_ten_witness :
    getActionSuggestions "" = TEST_ACTIONS.take 10 ∧
    getObjectSuggestions "" = PAGE_OBJECTS.take 10 :=
  empty_query_returns_first_ten "" (by decide)

/-!
## Upward recompute on strict ancestors of the target
-/

theorem countSelected_pos_iff :
    ∀ cs : NodeList, 0 < countSelected cs ↔ ∃ c ∈ cs.toList, c.selected = true
  | .nil => by simp
  | .cons hd tl => by
      have ih := countSelected_pos_iff tl
      by_cases h : hd.selected
      · constructor
        · intro _
          exact ⟨hd, by simp, h⟩
        · intro _
          simp [h]
      · simp [h, ih]

theorem countIndeterminate_pos_iff :
    ∀ cs : NodeList,
      0 < countIndeterminate cs ↔ ∃ c ∈ cs.toList, c.indeterminate = true
  | .nil => by simp
  | .cons hd tl => by
      have ih := countIndeterminate_pos_iff tl
      by_cases h : hd.indeterminate
      · constructor
        · intro _
          exact ⟨hd, by simp, h⟩
        · intro _
          simp [h]
      · simp [h, ih]

theorem computeFlags_all_selected {cs : NodeList}
    (h : ∀ c ∈ cs.toList, c.selected = true) : computeFlags cs = (true, false) := by
  unfold computeFlags
  rw [if_pos ((countSelected_eq_length_iff cs).mpr h)]

theorem computeFlags_none {cs : NodeList} (hne : cs ≠ .nil)
    (hsel : ∀ c ∈ cs.toList, c.selected = false)
    (hind : ∀ c ∈ cs.toList, c.indeterminate = false) :
    computeFlags cs = (false, false) := by
  unfold computeFlags
  have h0 : countSelected cs = 0 := (countSelected_eq_zero_iff cs).mpr hsel
  have h1 : countIndeterminate cs = 0 := (countIndeterminate_eq_zero_iff cs).mpr hind
  have hlen : cs.length ≠ 0 := fun hz => hne (NodeList.length_eq_zero_iff.mp hz)
  rw [if_neg (by omega), if_neg (by omega)]

theorem computeFlags_mixed {cs : NodeList}
    (hnotall : ¬ ∀ c ∈ cs.toList, c.selected = true)
    (hsome : (∃ c ∈ cs.toList, c.selected = true) ∨
      ∃ c ∈ cs.toList, c.indeterminate = true) :
    computeFlags cs = (false, true) := by
  unfold computeFlags
  have hne : countSelected cs ≠ cs.length := fun heq =>
    hnotall ((countSelected_eq_length_iff cs).mp heq)
  have hpos : 0 < countSelected cs ∨ 0 < countIndeterminate cs := by
    rcases hsome with h | h
    · exact Or.inl ((countSelected_pos_iff cs).mpr h)
    · exact Or.inr ((countIndeterminate_pos_iff cs).mpr h)
  rw [if_neg hne, if_pos hpos]

theorem updateNodeSelection_ancestor_flags :
    ∀ (ns : NodeList) (nodeId : String) (v : Bool), (NodeList.ids ns).Nodup →
      ∀ m ∈ (updateNodeSelection ns nodeId v).allNodes, m.id ≠ nodeId →
        nodeId ∈ m.allNodes.map TreeNode.id →
        ∃ cs, m.children = Children.arr cs ∧ cs ≠ NodeList.nil ∧
          m.selected = (computeFlags cs).1 ∧ m.indeterminate = (computeFlags cs).2
  | .nil, nodeId, v, hnd, m, hm, hne, hhas => by
      simp [updateNodeSelection] at hm
  | .cons (.mk i nm t s ind .undef) tl, nodeId, v, hnd, m, hm, hne, hhas => by
      have hndtl : (NodeList.ids tl).Nodup := by
        have : NodeList.ids (.cons (.mk i nm t s ind .undef) tl) =
            [i] ++ NodeList.ids tl := rfl
        rw [this] at hnd
        exact (List.nodup_append.mp hnd).2.1
      simp only [updateNodeSelection, NodeList.allNodes_cons, List.mem_append] at hm
      rcases hm with hm | hm
      · -- head is a childless node: whatever branch it took, its subtree is
        -- a singleton whose only id is i, so it cannot contain the target id
        -- while also differing from it
        exfalso
        by_cases hid : i = nodeId
        · simp [updateNode, hid] at hm
          subst hm
          exact hne (by simp [hid])
        · simp [updateNode, hid] at hm
          subst hm
          simp at hhas
          exact hid hhas.symm
      · exact updateNodeSelection_ancestor_flags tl nodeId v hndtl m hm hne hhas
  | .cons (.mk i nm t s ind (.arr cs)) tl, nodeId, v, hnd, m, hm, hne, hhas => by
      have hsplit : NodeList.ids (.cons (.mk i nm t s ind (.arr cs)) tl) =
          i :: (NodeList.ids cs ++ NodeList.ids tl) := by
        simp [NodeList.ids]
      rw [hsplit] at hnd
      have hndcs : (NodeList.ids cs).Nodup :=
        (List.nodup_append.mp (List.Nodup.of_cons hnd)).1
      have hndtl : (NodeList.ids tl).Nodup :=
        (List.nodup_append.mp (List.Nodup.of_cons hnd)).2.1
      simp only [updateNodeSelection, NodeList.allNodes_cons, List.mem_append] at hm
      rcases hm with hm | hm
      · by_cases hid : i = nodeId
        · -- the head is the target: nothing strictly inside its (forced)
          -- subtree can still hold the target id, by id uniqueness
          simp [updateNode, hid] at hm
          rcases hm with rfl | hm
          · exact absurd (by simp [hid]) hne
          · exfalso
            have hsub : nodeId ∈ (updateAllChildren cs v).allNodes.map TreeNode.id := by
              rcases List.mem_map.mp hhas with ⟨x, hx, hxid⟩
              exact List.mem_map.mpr
                ⟨x, NodeList.allNodes_trans_list (updateAllChildren cs v) m hm x hx, hxid⟩
            rw [updateAllChildren_ids] at hsub
            have hninl : i ∉ NodeList.ids cs ++ NodeList.ids tl :=
              (List.nodup_cons.mp hnd).1
            rw [hid] at hninl
            exact hninl (List.mem_append_left _ hsub)
        · simp [updateNode, hid] at hm
          rcases hm with rfl | hm
          · -- m is the recomputed head: its flags come from computeFlags of
            -- its (updated) children, which are nonempty since they hold
            -- the target id
            refine ⟨updateNodeSelection cs nodeId v, rfl, ?_, rfl, rfl⟩
            intro hnil
            rw [hnil] at hhas
            simp at hhas
            exact hne (by simp [hhas])
          · exact updateNodeSelection_ancestor_flags cs nodeId v hndcs m hm hne hhas
      · exact updateNodeSelection_ancestor_flags tl nodeId v hndtl m hm hne hhas

/-- Claim C2: after `setNodeSelected` on a well-formed tree (unique ids)
containing the target, every node that is a strict ancestor of the target
(its id differs from the target id and its subtree holds the target id)
has its `selected`/`indeterminate` recomputed purely from its direct
children's final state by exactly the three rules: all children selected →
`(true, false)`; no child selected and no child indeterminate →
`(false, false)`; any other mix → `(false, true)`. -/
theorem ancestors_recomputed_from_children (ns : NodeList) (nodeId : String)
    (v : Bool) (hnd : (NodeList.ids ns).Nodup) (_hpresent : nodeId ∈ ns.ids) :
    ∀ m ∈ (updateNodeSelection ns nodeId v).allNodes, m.id ≠ nodeId →
      nodeId ∈ m.allNodes.map TreeNode.id →
      ∃ cs, m.children = Children.arr cs ∧
        ((∀ c ∈ cs.toList, c.selected = true) →
          m.selected = true ∧ m.indeterminate = false) ∧
        (((∀ c ∈ cs.toList, c.selected = false) ∧
          (∀ c ∈ cs.toList, c.indeterminate = false)) →
          m.selected = false ∧ m.indeterminate = false) ∧
        ((¬ (∀ c ∈ cs.toList, c.selected = true)) →
          ((∃ c ∈ cs.toList, c.selected = true) ∨
            (∃ c ∈ cs.toList, c.indeterminate = true)) →
          m.selected = false ∧ m.indeterminate = true) := by
  intro m hm hne hhas
  obtain ⟨cs, hch, hnonempty, hsel, hind⟩ :=
    updateNodeSelection_ancestor_flags ns nodeId v hnd m hm hne hhas
  refine ⟨cs, hch, ?_, ?_, ?_⟩
  · intro hall
    rw [hsel, hind, computeFlags_all_selected hall]
    exact ⟨rfl, rfl⟩
  · intro ⟨hs0, hi0⟩
    rw [hsel, hind, computeFlags_none hnonempty hs0 hi0]
    exact ⟨rfl, rfl⟩
  · intro hnotall hsome
    rw [hsel, hind, computeFlags_mixed hnotall hsome]
    exact ⟨rfl, rfl⟩

/-- Witness for C2: in the three-leaf folder tree, selecting exactly one
of the three children leaves the folder `selected = false`,
`indeterminate = true` via the mixed rule. -/
theorem ancestors_recomputed_from_children_witness :
    ∃ cs, mixedFolder.children = Children.arr cs ∧
      ((∀ c ∈ cs.toList, c.selected = true) →
        mixedFolder.selected = true ∧ mixedFolder.indeterminate = false) ∧
      (((∀ c ∈ cs.toList, c.selected = false) ∧
        (∀ c ∈ cs.toList, c.indeterminate = false)) →
        mixedFolder.selected = false ∧ mixedFolder.indeterminate = false) ∧
      ((¬ (∀ c ∈ cs.toList, c.selected = true)) →
        ((∃ c ∈ cs.toList, c.selected = true) ∨
          (∃ c ∈ cs.toList, c.indeterminate = true)) →
        mixedFolder.selected = false ∧ mixedFolder.indeterminate = true) :=
  ancestors_recomputed_from_children threeTree "T1" true (by decide) (by decide)
    mixedFolder (by decide) (by decide) (by decide)

/-!
## Filtering and ordering of non-empty suggestion queries
-/

theorem lexLe_total : ∀ (x y : List Char), lexLe x y = true ∨ lexLe y x = true
  | [], y => Or.inl rfl
  | _ :: _, [] => Or.inr rfl
  | a :: as, b :: bs => by
      rcases lt_trichotomy a b with h | h | h
      · left
        simp [lexLe, h]
      · subst h
        rcases lexLe_total as bs with ih | ih
        · left
          simp [lexLe, lt_irrefl, ih]
        · right
          simp [lexLe, lt_irrefl, ih]
      · right
        simp [lexLe, h]

theorem lexLe_trans : ∀ (x y z : List Char),
    lexLe x y = true → lexLe y z = true → lexLe x z = true
  | [], _, _ => fun _ _ => rfl
  | _ :: _, [], _ => by intro h1 _; simp [lexLe] at h1
  | _ :: _, _ :: _, [] => by intro _ h2; simp [lexLe] at h2
  | a :: as, b :: bs, c :: cs => by
      intro h1 h2
      rcases lt_trichotomy a b with hab | hab | hab
      · rcases lt_trichotomy b c with hbc | hbc | hbc
        · simp [lexLe, lt_trans hab hbc]
        · subst hbc
          simp [lexLe, hab]
        · simp [lexLe, lt_asymm hbc, hbc] at h2
      · subst hab
        rcases lt_trichotomy a c with hbc | hbc | hbc
        · simp [lexLe, hbc]
        · subst hbc
          simp only [lexLe, lt_irrefl, if_false] at h1 h2 ⊢
          exact lexLe_trans as bs cs h1 h2
        · simp [lexLe, lt_asymm hbc, hbc] at h2
      · simp [lexLe, lt_asymm hab, hab] at h1

theorem actionLeB_total (nq : String) (a b : TestAction) :
    actionLeB nq a b = true ∨ actionLeB nq b a = true := by
  simp only [actionLeB]
  cases haE : jsStartsWith (jsToLower a.name) nq <;>
    cases hbE : jsStartsWith (jsToLower b.name) nq <;>
    simp [haE, hbE] <;>
    exact lexLe_total _ _

theorem actionLeB_trans (nq : String) (a b c : TestAction) :
    actionLeB nq a b = true → actionLeB nq b c = true → actionLeB nq a c = true := by
  simp only [actionLeB]
  cases haE : jsStartsWith (jsToLower a.name) nq <;>
    cases hbE : jsStartsWith (jsToLower b.name) nq <;>
    cases hcE : jsStartsWith (jsToLower c.name) nq <;>
    simp [haE, hbE, hcE] <;>
    exact fun h1 h2 => lexLe_trans _ _ _ h1 h2

theorem actionLeB_imp_claim {nq : String} {a b : TestAction}
    (h : actionLeB nq a b = true) :
    (startsName nq a = true ∧ startsName nq b = false) ∨
    (startsName nq a = startsName nq b ∧ lexLe a.name.data b.name.data = true) := by
  simp only [actionLeB] at h
  simp only [startsName]
  cases haE : jsStartsWith (jsToLower a.name) nq <;>
    cases hbE : jsStartsWith (jsToLower b.name) nq <;>
    simp [haE, hbE] at h ⊢ <;>
    exact h

/-- Claim C7: for every query whose normalized form is non-empty,
`getActionSuggestions` returns a permutation of exactly the catalog
entries whose lower-cased name or description contains the normalized
query (no truncation), ordered so that every entry whose lower-cased name
starts with the query precedes every entry that does not, with ties inside
each group in ascending name order. -/
theorem action_suggestions_filter_and_order (q : String)
    (h : jsTrim (jsToLower q) ≠ "") :
    (getActionSuggestions q).Perm
      (TEST_ACTIONS.filter (actionMatches (jsTrim (jsToLower q)))) ∧
    (getActionSuggestions q).Pairwise (fun a b =>
      (startsName (jsTrim (jsToLower q)) a = true ∧
        startsName (jsTrim (jsToLower q)) b = false) ∨
      (startsName (jsTrim (jsToLower q)) a = startsName (jsTrim (jsToLower q)) b ∧
        lexLe a.name.data b.name.data = true)) := by
  have hdef : getActionSuggestions q =
      List.insertionSort (fun a b => actionLeB (jsTrim (jsToLower q)) a b = true)
        (TEST_ACTIONS.filter (actionMatches (jsTrim (jsToLower q)))) := by
    simp [getActionSuggestions, h]
  constructor
  · rw [hdef]
    exact List.perm_insertionSort _ _
  · rw [hdef]
    haveI hTot : IsTotal TestAction
        (fun a b => actionLeB (jsTrim (jsToLower q)) a b = true) :=
      ⟨fun a b => actionLeB_total _ a b⟩
    haveI hTr : IsTrans TestAction
        (fun a b => actionLeB (jsTrim (jsToLower q)) a b = true) :=
      ⟨fun a b c => actionLeB_trans _ a b c⟩
    have hs := List.sorted_insertionSort
      (fun a b => actionLeB (jsTrim (jsToLower q)) a b = true)
      (TEST_ACTIONS.filter (actionMatches (jsTrim (jsToLower q))))
    exact hs.imp (fun hab => actionLeB_imp_claim hab)

/-- Witness for C7 at the concrete query `"wait"`, which matches three
catalog entries (two by name, one by description only). -/
theorem action_suggestions_filter_and_order_witness :
    (getActionSuggestions "wait").Perm
      (TEST_ACTIONS.filter (actionMatches (jsTrim (jsToLower "wait")))) ∧
    (getActionSuggestions "wait").Pairwise (fun a b =>
      (startsName (jsTrim (jsToLower "wait")) a = true ∧
        startsName (jsTrim (jsToLower "wait")) b = false) ∨
      (startsName (jsTrim (jsToLower "wait")) a =
          startsName (jsTrim (jsToLower "wait")) b ∧
        lexLe a.name.data b.name.data = true)) :=
  action_suggestions_filter_and_order "wait" (by decide)
